import Mathlib

/-!
Verification of `computeProofInputs.js`

A shallow embedding of `src/circuit/computeProofInputs.js`, the helper script that
computes the values of `Prover.toml` (commitment, nullifier hash, zero values, Merkle
path and root) for one deposit.

Conventions of the embedding.

* JavaScript strings are `String`; arrays are `List`; a thrown exception is `none`.
* The numeric constants `secret`, `nullifier` and `index` are non-negative integers and
  are parameters of `script`; the script itself is `main`, with `7`, `11` and `0`.
* `crypto.createHash('sha256').update(buf).digest('hex')` belongs to the Node.js
  library, not to the repository: it is the parameter `sha256Hex`, a function from the
  bytes of the buffer to the hexadecimal string of the digest.  `DigestOK` states what
  the library guarantees of it: 64 lowercase hexadecimal digits.
-/

namespace ComputeProofInputs

/-! ## JavaScript built-ins used by the script -/

/-- The JavaScript values the script hands to `BigInt(...)`: a Number holding a
non-negative integer, a BigInt, or a string. -/
inductive Value where
  | number (n : Nat)
  | bigint (n : Nat)
  | string (s : String)
  deriving DecidableEq, Repr

/-- Value of one hexadecimal digit (either case), `none` for any other character. -/
def hexDigitValue (c : Char) : Option Nat :=
  if 48 ≤ c.toNat ∧ c.toNat ≤ 57 then some (c.toNat - 48)
  else if 97 ≤ c.toNat ∧ c.toNat ≤ 102 then some (c.toNat - 87)
  else if 65 ≤ c.toNat ∧ c.toNat ≤ 70 then some (c.toNat - 55)
  else none

/-- Most significant digit first accumulation of hexadecimal digits; `none` as soon as
a character is not a hexadecimal digit. -/
def parseHexDigits : List Char → Nat → Option Nat
  | [], acc => some acc
  | c :: cs, acc =>
    match hexDigitValue c with
    | some d => parseHexDigits cs (16 * acc + d)
    | none => none

/-- Conversion `BigInt(s)` for a string `s` of the form the script produces, `0x` followed by at
least one hexadecimal digit.  Every other string is `none`; for a malformed
hexadecimal literal that is the `SyntaxError` of JavaScript, while the decimal, octal
and binary literals and surrounding white space that JavaScript also accepts are not
modelled (the script never builds such a string). -/
def stringToBigInt (s : String) : Option Nat :=
  match s.data with
  | '0' :: 'x' :: d :: ds => parseHexDigits (d :: ds) 0
  | '0' :: 'X' :: d :: ds => parseHexDigits (d :: ds) 0
  | _ => none

/-- Conversion `BigInt(value)`. -/
def BigInt : Value → Option Nat
  | .number n => some n
  | .bigint n => some n
  | .string s => stringToBigInt s

/-- Method `n.toString(16)` for a non-negative BigInt `n`: lowercase digits, no leading zero,
`"0"` for zero. -/
def toString16 (n : Nat) : String :=
  String.mk (Nat.toDigits 16 n)

/-- Method `s.padStart(targetLength, c)` for a one-character pad string. -/
def padStart (s : String) (targetLength : Nat) (c : Char) : String :=
  String.mk (List.replicate (targetLength - s.length) c) ++ s

/-- Decoding loop of `Buffer.from(hex, 'hex')`: two characters give one byte, decoding
stops at the first pair that is not two hexadecimal digits, and a trailing single
character is dropped. -/
def hexDecode : List Char → List Nat
  | c1 :: c2 :: rest =>
    match hexDigitValue c1, hexDigitValue c2 with
    | some a, some b => (16 * a + b) :: hexDecode rest
    | _, _ => []
  | _ => []

/-- Call `Buffer.from(hex, 'hex')`, the buffer as the list of its bytes. -/
def bufferFromHex (hex : String) : List Nat :=
  hexDecode hex.data

/-- Template-literal rendering of a Number holding a non-negative integer: its decimal
digits (JavaScript switches to exponent form from `10^21` on, which is not
modelled). -/
def numberToString (n : Nat) : String :=
  toString n

/-! ## The functions of the script -/

/-- Function `fieldToBytes32(value)`: the value as `0x` and 64 hexadecimal digits. -/
def fieldToBytes32 (value : Value) : Option String := do
  let n ← BigInt value
  let hex := padStart (toString16 n) 64 '0'
  pure ("0x" ++ hex)

/-- Function `keccakHash(...values)`: every value is converted with `BigInt`, written as
hexadecimal padded to 64 digits and decoded to bytes; the concatenation is hashed with
the library digest `sha256Hex` and `0x` is put in front. -/
def keccakHash (sha256Hex : List Nat → String) (values : List Value) : Option String := do
  let packed ← values.mapM (fun v => do
    let n ← BigInt v
    let hex := padStart (toString16 n) 64 '0'
    pure (bufferFromHex hex))
  let hash := sha256Hex packed.flatten
  pure ("0x" ++ hash)

/-- The loop `for (let i = 1; i < 3; i++)` that fills `zeros`, started from
`[fieldToBytes32(0)]`.  Reading `zeros[i - 1]` out of range gives `undefined`, on which
`BigInt` throws. -/
def buildZeros (sha256Hex : List Nat → String) : Option (List String) := do
  let z0 ← fieldToBytes32 (.number 0)
  (List.range' 1 2).foldlM (fun zeros i => do
    let prev ← zeros[i - 1]?
    let a ← BigInt (.string prev)
    let b ← BigInt (.string prev)
    let h ← keccakHash sha256Hex [.bigint a, .bigint b]
    pure (zeros ++ [h])) [z0]

/-- The variables the Merkle-path loop updates. -/
structure LoopState where
  hashPath : List String
  currentHash : String
  currentIndex : Nat
  deriving DecidableEq, Repr

/-- One iteration of `for (let level = 0; level < 3; level++)`.  Both branches push
`zeros[level]`; they differ in the order of the two hash arguments.  `zeros[level]` out
of range is `undefined`, on which `BigInt` throws. -/
def loopBody (sha256Hex : List Nat → String) (zeros : List String)
    (st : LoopState) (level : Nat) : Option LoopState := do
  let z ← zeros[level]?
  if st.currentIndex % 2 = 0 then
    let a ← BigInt (.string st.currentHash)
    let b ← BigInt (.string z)
    let h ← keccakHash sha256Hex [.bigint a, .bigint b]
    pure { hashPath := st.hashPath ++ [z], currentHash := h,
           currentIndex := st.currentIndex / 2 }
  else
    let a ← BigInt (.string z)
    let b ← BigInt (.string st.currentHash)
    let h ← keccakHash sha256Hex [.bigint a, .bigint b]
    pure { hashPath := st.hashPath ++ [z], currentHash := h,
           currentIndex := st.currentIndex / 2 }

/-- State of the Merkle-path loop after its first `n` iterations (levels `0 .. n-1`),
that is, at the start of level `n`. -/
def loopAfter (sha256Hex : List Nat → String) (zeros : List String)
    (commitment : String) (index : Nat) (n : Nat) : Option LoopState :=
  (List.range n).foldlM (loopBody sha256Hex zeros)
    { hashPath := [], currentHash := commitment, currentIndex := index }

/-- The arguments of the `console.log` calls from the `=== Prover.toml ===` header to
the end of the script, one string per call. -/
def proverToml (root nullifierHash : String) (secret nullifier index : Nat)
    (hashPath : List String) : List String :=
  ["\n=== Prover.toml ===",
   "root = \"" ++ root ++ "\"",
   "nullifier_hash = \"" ++ nullifierHash ++ "\"",
   "secret = \"" ++ numberToString secret ++ "\"",
   "nullifier = \"" ++ numberToString nullifier ++ "\"",
   "index = " ++ numberToString index,
   "hash_path = ["]
  ++ hashPath.enum.map (fun p =>
      "    \"" ++ p.2 ++ "\"" ++ (if p.1 < hashPath.length - 1 then "," else ""))
  ++ ["]"]

/-- Everything the script computes. -/
structure Output where
  commitment : String
  nullifierHash : String
  zeros : List String
  hashPath : List String
  root : String
  toml : List String
  deriving DecidableEq, Repr

/-- The script, top to bottom, with the constants `secret`, `nullifier` and `index` as
parameters.  The informational `console.log` calls before the Prover.toml block are
left out. -/
def script (sha256Hex : List Nat → String) (secret nullifier index : Nat) :
    Option Output := do
  let commitment ← keccakHash sha256Hex [.number secret, .number nullifier]
  let nullifierHash ← keccakHash sha256Hex [.number nullifier]
  let zeros ← buildZeros sha256Hex
  let st ← loopAfter sha256Hex zeros commitment index 3
  let root := st.currentHash
  pure { commitment := commitment, nullifierHash := nullifierHash, zeros := zeros,
         hashPath := st.hashPath, root := root,
         toml := proverToml root nullifierHash secret nullifier index st.hashPath }

/-- The script as written: `secret = 7`, `nullifier = 11`, `index = 0`. -/
def main (sha256Hex : List Nat → String) : Option Output :=
  script sha256Hex 7 11 0

/-! ## What the library digest guarantees -/

/-- A lowercase hexadecimal digit. -/
def isLowerHexDigit (c : Char) : Bool :=
  (48 ≤ c.toNat && c.toNat ≤ 57) || (97 ≤ c.toNat && c.toNat ≤ 102)

/-- The library contract of `digest('hex')` for SHA-256: 64 lowercase hexadecimal
digits, whatever the input. -/
def DigestOK (sha256Hex : List Nat → String) : Prop :=
  ∀ bs, (sha256Hex bs).length = 64 ∧ ∀ c ∈ (sha256Hex bs).data, isLowerHexDigit c = true

/-- A small stand-in digest used to instantiate the theorems on concrete data: digit
`i` of the result mixes a running checksum of the bytes with the position. -/
def toySha (bs : List Nat) : String :=
  let seed := bs.foldl (fun acc b => (acc * 31 + b + 1) % 65521) 1
  String.mk ((List.range 64).map (fun i => Nat.digitChar ((seed / (i + 1) + i * seed) % 16)))

/-! ## Proof devices: total readings of the partial operations -/

/-- The string converts with `BigInt` (no `SyntaxError`). -/
def Parses (s : String) : Prop :=
  (stringToBigInt s).isSome = true

/-- The integer `BigInt(s)` of a string that converts, `0` otherwise. -/
def valueOf (s : String) : Nat :=
  (stringToBigInt s).getD 0

/-- The bytes `keccakHash` packs for one value (32 of them for a value below
`2 ^ 256`). -/
def packValue (n : Nat) : List Nat :=
  bufferFromHex (padStart (toString16 n) 64 '0')

/-- What `keccakHash(a, b)` returns for two strings that convert with `BigInt`. -/
def digest2 (sha256Hex : List Nat → String) (a b : String) : String :=
  "0x" ++ sha256Hex (packValue (valueOf a) ++ packValue (valueOf b))

/-- What `keccakHash(secret, nullifier)` returns for two Numbers. -/
def commitmentOf (sha256Hex : List Nat → String) (secret nullifier : Nat) : String :=
  "0x" ++ sha256Hex (packValue secret ++ packValue nullifier)

/-- What `keccakHash(nullifier)` returns for a Number. -/
def nullifierHashOf (sha256Hex : List Nat → String) (nullifier : Nat) : String :=
  "0x" ++ sha256Hex (packValue nullifier)

/-- The pair (current hash, current index) after the Merkle-path loop has gone through
the given siblings, read off the loop body with the total `digest2`. -/
def climb (sha256Hex : List Nat → String) (siblings : List String) (leaf : String)
    (index : Nat) : String × Nat :=
  siblings.foldl (fun p z =>
    (if p.2 % 2 = 0 then digest2 sha256Hex p.1 z else digest2 sha256Hex z p.1, p.2 / 2))
    (leaf, index)

/-- The string `fieldToBytes32(0)`. -/
def zeroLeaf : String :=
  "0x0000000000000000000000000000000000000000000000000000000000000000"

/-- The three zero values the script builds. -/
def zeroValues (sha256Hex : List Nat → String) : List String :=
  [zeroLeaf, digest2 sha256Hex zeroLeaf zeroLeaf,
   digest2 sha256Hex (digest2 sha256Hex zeroLeaf zeroLeaf)
     (digest2 sha256Hex zeroLeaf zeroLeaf)]

/-! ## The hash oracle and the reference algorithms of the specification -/

/-- The two-argument hash oracle the script uses, `hash2(a, b) = keccakHash(a, b)` on
digest strings, with `none` for a thrown exception (of an argument or of the call). -/
def hash2 (sha256Hex : List Nat → String) (a b : Option String) : Option String := do
  let x ← a
  let y ← b
  keccakHash sha256Hex [.string x, .string y]

/-- Follows the specification (ProofVerifier, `verify`): start from the leaf, combine
with each sibling of the path in order, `hash2(sibling, currentHash)` when the sibling
is a left sibling and `hash2(currentHash, sibling)` otherwise, and compare the result
with the claimed root. -/
def specVerify {D : Type} [DecidableEq D] (h2 : D → D → D) (leaf : D) (_index : Nat)
    (path : List (D × Bool)) (claimedRoot : D) : Bool :=
  decide (path.foldl (fun cur e => if e.2 then h2 e.1 cur else h2 cur e.1) leaf = claimedRoot)

/-- One level of a full rebuild: every parent is `hash2(left child, right child)`. -/
def hashPairs {D : Type} (h2 : D → D → D) : List D → List D
  | a :: b :: rest => h2 a b :: hashPairs h2 rest
  | _ => []

/-- Follows the specification (naive full rebuild): the Merkle root of the complete
binary tree of the given depth over the list of its `2 ^ depth` leaves, `none` when
the list does not have that length. -/
def naiveRoot {D : Type} (h2 : D → D → D) (depth : Nat) (leaves : List D) : Option D :=
  if leaves.length = 2 ^ depth then ((hashPairs h2)^[depth] leaves).head? else none

/-- The error taxonomy of the specification. -/
inductive SpecError where
  | invalidConfig
  | treeFull
  | indexOutOfRange
  | alreadySpent
  deriving DecidableEq, Repr

/-- The implementation-chosen ceiling on the depth (the specification suggests 32). -/
def maxDepth : Nat := 32

/-- Follows the specification (IncrementalMerkleTree, data model). -/
structure SpecTree (D : Type) where
  depth : Nat
  leafCount : Nat
  filledSubtrees : List D
  root : D
  zeros : List D

/-- Follows the specification (ZeroCache, `build`): `zeros[0]` is the digest of an empty
leaf and `zeros[i] = hash2(zeros[i-1], zeros[i-1])` for `i` in `1..=depth`, so the
sequence has `depth + 1` entries. -/
def specZeros {D : Type} (h2 : D → D → D) (emptyLeaf : D) (depth : Nat) : List D :=
  List.iterate (fun z => h2 z z) emptyLeaf (depth + 1)

/-- Follows the specification (`new`): the depth must be in `1..=maxDepth`; the tree
starts with no leaf, `root = zeros[depth]` and `filledSubtrees[l] = zeros[l]` at every
level `l` below the depth. -/
def specNew {D : Type} (h2 : D → D → D) (emptyLeaf : D) (depth : Nat) :
    Except SpecError (SpecTree D) :=
  if 1 ≤ depth ∧ depth ≤ maxDepth then
    .ok { depth := depth, leafCount := 0,
          filledSubtrees := (specZeros h2 emptyLeaf depth).take depth,
          root := (fun z => h2 z z)^[depth] emptyLeaf,
          zeros := specZeros h2 emptyLeaf depth }
  else .error .invalidConfig

/-- Follows the specification (the level loop of `insert`), level by level over
`zeros[l]` and `filledSubtrees[l]`.  Even `currentIndex`: the sibling is `zeros[l]`,
`filledSubtrees[l] := currentHash`, parent `hash2(currentHash, zeros[l])`.  Odd
`currentIndex`: the sibling is `filledSubtrees[l]`, which is left unchanged, parent
`hash2(filledSubtrees[l], currentHash)`.  Then `currentIndex := currentIndex / 2` and
`currentHash := parent`.  Returns the new `filledSubtrees`, the siblings met and the
final hash. -/
def insertLevels {D : Type} (h2 : D → D → D) :
    List D → List D → D → Nat → List D × List D × D
  | z :: zs, f :: fs, currentHash, currentIndex =>
    if currentIndex % 2 = 0 then
      let r := insertLevels h2 zs fs (h2 currentHash z) (currentIndex / 2)
      (currentHash :: r.1, z :: r.2.1, r.2.2)
    else
      let r := insertLevels h2 zs fs (h2 f currentHash) (currentIndex / 2)
      (f :: r.1, f :: r.2.1, r.2.2)
  | _, _, currentHash, _ => ([], [], currentHash)

/-- What one `insert` yields: the updated tree, the index of the leaf, and the sibling
of every level of its path. -/
structure InsertResult (D : Type) where
  tree : SpecTree D
  index : Nat
  siblings : List D

/-- Follows the specification (`insert`): `TreeFull` when `leafCount = 2 ^ depth`;
otherwise the leaf goes to `index = leafCount`, the level loop runs from
`currentHash = leaf`, `currentIndex = index`, then `root := currentHash` and
`leafCount += 1`. -/
def specInsert {D : Type} (h2 : D → D → D) (t : SpecTree D) (leaf : D) :
    Except SpecError (InsertResult D) :=
  if t.leafCount = 2 ^ t.depth then .error .treeFull
  else
    let r := insertLevels h2 (t.zeros.take t.depth) t.filledSubtrees leaf t.leafCount
    .ok { tree := { t with filledSubtrees := r.1, root := r.2.2,
                           leafCount := t.leafCount + 1 },
          index := t.leafCount, siblings := r.2.1 }

/-- Inserting a sequence of leaves one after the other. -/
def insertAll {D : Type} (h2 : D → D → D) (t : SpecTree D) (leaves : List D) :
    Except SpecError (SpecTree D) :=
  leaves.foldlM (fun t leaf => (specInsert h2 t leaf).map (fun r => r.tree)) t

/-- Root, index and siblings that `insert` produces for `leaf` when it is inserted into
the depth-3 tree right after the leaves `earlier`. -/
def insertAfter {D : Type} (h2 : D → D → D) (emptyLeaf : D) (earlier : List D) (leaf : D) :
    Except SpecError (D × Nat × List D) := do
  let t0 ← specNew h2 emptyLeaf 3
  let t ← insertAll h2 t0 earlier
  let r ← specInsert h2 t leaf
  pure (r.tree.root, r.index, r.siblings)

/-- A digest string different from the empty leaf: the 32-byte encoding of 1. -/
def leafOne : String :=
  "0x0000000000000000000000000000000000000000000000000000000000000001"

/-! ## The packed buffer and its big-endian reading -/

/-- The buffer `keccakHash` hands to the digest: the `map` over `values` (conversion with
`BigInt`, hexadecimal padded to 64 digits, `Buffer.from(hex, 'hex')`) followed by
`Buffer.concat(packed)`. -/
def packedBuffer (values : List Value) : Option (List Nat) := do
  let packed ← values.mapM (fun v => do
    let n ← BigInt v
    let hex := padStart (toString16 n) 64 '0'
    pure (bufferFromHex hex))
  pure packed.flatten

/-- The integer a list of bytes denotes, most significant byte first. -/
def bytesValue (bs : List Nat) : Nat :=
  bs.foldl (fun acc b => 256 * acc + b) 0

/-- The `k`-byte big-endian encoding of `n`: the last byte is `n % 256`, the bytes
before it encode `n / 256`. -/
def bigEndian : Nat → Nat → List Nat
  | 0, _ => []
  | k + 1, n => bigEndian k (n / 256) ++ [n % 256]

/-- A second stand-in digest, different from `toySha`, used where a theorem speaks of
two digest functions. -/
def toyKeccak (bs : List Nat) : String :=
  toySha (bs ++ [1])

/-- A digest string as the script emits it: `0x` followed by exactly 64 lowercase
hexadecimal digits. -/
def IsDigestString (d : String) : Prop :=
  ∃ hex : String, d = "0x" ++ hex ∧ hex.length = 64 ∧
    ∀ c ∈ hex.data, isLowerHexDigit c = true

/-- A string that can be passed on as `keccakHash(BigInt(d), ...)`: `BigInt(d)` does not
throw, its value is in `[0, 2^256)`, and `keccakHash` packs that value to exactly 32
bytes. -/
def IsFieldArgument (d : String) : Prop :=
  ∃ v, BigInt (.string d) = some v ∧ v < 2 ^ 256 ∧
    (bufferFromHex (padStart (toString16 v) 64 '0')).length = 32

/-! ## Lemmas on the encoding and on the evaluation of the script -/

theorem hexDigitValue_isSome {c : Char} (h : isLowerHexDigit c = true) :
    (hexDigitValue c).isSome = true := by
  unfold isLowerHexDigit at h
  unfold hexDigitValue
  simp only [Bool.or_eq_true, Bool.and_eq_true, decide_eq_true_eq] at h
  split_ifs <;> simp_all

theorem parseHexDigits_isSome (cs : List Char) (h : ∀ c ∈ cs, isLowerHexDigit c = true)
    (acc : Nat) : (parseHexDigits cs acc).isSome = true := by
  induction cs generalizing acc with
  | nil => simp [parseHexDigits]
  | cons c cs ih =>
    have hc := hexDigitValue_isSome (h c (List.mem_cons_self _ _))
    obtain ⟨d, hd⟩ := Option.isSome_iff_exists.mp hc
    simp only [parseHexDigits, hd]
    exact ih (fun x hx => h x (List.mem_cons_of_mem _ hx)) _

theorem parses_digest {sha : List Nat → String} (h : DigestOK sha) (bs : List Nat) :
    Parses ("0x" ++ sha bs) := by
  obtain ⟨hl, hc⟩ := h bs
  unfold Parses stringToBigInt
  have : ("0x" ++ sha bs).data = '0' :: 'x' :: (sha bs).data := by
    simp [String.data_append]
  rw [this]
  cases hd : (sha bs).data with
  | nil =>
    have : (sha bs).length = 0 := by simp [String.length, hd]
    omega
  | cons d ds =>
    simp only
    rw [← hd]
    exact parseHexDigits_isSome _ hc 0

theorem parses_zeroLeaf : Parses zeroLeaf := by
  unfold Parses
  decide

theorem fieldToBytes32_zero : fieldToBytes32 (.number 0) = some zeroLeaf := by
  decide

theorem parses_digest2 {sha : List Nat → String} (h : DigestOK sha) (a b : String) :
    Parses (digest2 sha a b) :=
  parses_digest h _

theorem BigInt_string {s : String} (h : Parses s) :
    BigInt (.string s) = some (valueOf s) := by
  unfold Parses at h
  obtain ⟨v, hv⟩ := Option.isSome_iff_exists.mp h
  simp [BigInt, valueOf, hv]

theorem keccakHash_bigint2 (sha : List Nat → String) (a b : Nat) :
    keccakHash sha [.bigint a, .bigint b]
      = some ("0x" ++ sha (packValue a ++ packValue b)) := by
  unfold keccakHash
  simp only [List.mapM_cons, List.mapM_nil]
  simp [BigInt, packValue]

theorem keccakHash_valueOf (sha : List Nat → String) (a b : String) :
    keccakHash sha [.bigint (valueOf a), .bigint (valueOf b)] = some (digest2 sha a b) := by
  rw [keccakHash_bigint2, digest2]

theorem keccakHash_string2 (sha : List Nat → String) {a b : String}
    (ha : Parses a) (hb : Parses b) :
    keccakHash sha [.string a, .string b] = some (digest2 sha a b) := by
  unfold keccakHash
  simp only [List.mapM_cons, List.mapM_nil]
  simp [BigInt_string ha, BigInt_string hb, packValue, digest2]

theorem hash2_some (sha : List Nat → String) {a b : String}
    (ha : Parses a) (hb : Parses b) :
    hash2 sha (some a) (some b) = some (digest2 sha a b) := by
  simp [hash2, keccakHash_string2 sha ha hb]

theorem loopBody_eq (sha : List Nat → String) (zeros : List String) (st : LoopState)
    (level : Nat) (z : String) (hz : zeros[level]? = some z) (pz : Parses z)
    (pc : Parses st.currentHash) :
    loopBody sha zeros st level = some
      { hashPath := st.hashPath ++ [z],
        currentHash := if st.currentIndex % 2 = 0 then digest2 sha st.currentHash z
                       else digest2 sha z st.currentHash,
        currentIndex := st.currentIndex / 2 } := by
  unfold loopBody
  split_ifs with hpar <;>
    simp [hz, hpar, BigInt_string pz, BigInt_string pc, keccakHash_valueOf]

theorem buildZeros_eq {sha : List Nat → String} (h : DigestOK sha) :
    buildZeros sha = some (zeroValues sha) := by
  unfold zeroValues
  have p0 := parses_zeroLeaf
  have p1 := parses_digest2 h zeroLeaf zeroLeaf
  simp [buildZeros, fieldToBytes32_zero, List.range', BigInt_string p0, BigInt_string p1,
    keccakHash_valueOf]

theorem parses_zeroValues {sha : List Nat → String} (h : DigestOK sha) :
    ∀ z ∈ zeroValues sha, Parses z := by
  intro z hz
  simp only [zeroValues, List.mem_cons, List.mem_singleton, List.not_mem_nil, or_false] at hz
  rcases hz with rfl | rfl | rfl
  · exact parses_zeroLeaf
  · exact parses_digest2 h _ _
  · exact parses_digest2 h _ _

theorem keccakHash_number2 (sha : List Nat → String) (a b : Nat) :
    keccakHash sha [.number a, .number b] = some (commitmentOf sha a b) := by
  unfold keccakHash
  simp only [List.mapM_cons, List.mapM_nil]
  simp [BigInt, packValue, commitmentOf]

theorem keccakHash_number1 (sha : List Nat → String) (a : Nat) :
    keccakHash sha [.number a] = some (nullifierHashOf sha a) := by
  unfold keccakHash
  simp only [List.mapM_cons, List.mapM_nil]
  simp [BigInt, packValue, nullifierHashOf]

theorem parses_commitmentOf {sha : List Nat → String} (h : DigestOK sha) (a b : Nat) :
    Parses (commitmentOf sha a b) :=
  parses_digest h _

theorem climb_nil (sha : List Nat → String) (c : String) (i : Nat) :
    climb sha [] c i = (c, i) := rfl

theorem climb_cons (sha : List Nat → String) (z : String) (zs : List String) (c : String)
    (i : Nat) :
    climb sha (z :: zs) c i
      = climb sha zs (if i % 2 = 0 then digest2 sha c z else digest2 sha z c) (i / 2) := rfl

theorem climb_snoc (sha : List Nat → String) (zs : List String) (z : String) (c : String)
    (i : Nat) :
    climb sha (zs ++ [z]) c i
      = (if (climb sha zs c i).2 % 2 = 0 then digest2 sha (climb sha zs c i).1 z
          else digest2 sha z (climb sha zs c i).1, (climb sha zs c i).2 / 2) := by
  simp [climb, List.foldl_append]

theorem climb_snd (sha : List Nat → String) (zs : List String) (c : String) (i : Nat) :
    (climb sha zs c i).2 = i / 2 ^ zs.length := by
  induction zs generalizing c i with
  | nil => simp [climb_nil]
  | cons z zs ih =>
    rw [climb_cons, ih, List.length_cons, Nat.div_div_eq_div_mul, pow_succ, mul_comm]

theorem parses_climb {sha : List Nat → String} (h : DigestOK sha) (zs : List String)
    (c : String) (pc : Parses c) (i : Nat) : Parses (climb sha zs c i).1 := by
  induction zs generalizing c i with
  | nil => simpa [climb_nil] using pc
  | cons z zs ih =>
    rw [climb_cons]
    apply ih
    split_ifs <;> exact parses_digest2 h _ _

theorem loopAfter_succ (sha : List Nat → String) (zeros : List String) (c : String)
    (i n : Nat) :
    loopAfter sha zeros c i (n + 1)
      = (loopAfter sha zeros c i n).bind (fun st => loopBody sha zeros st n) := by
  simp [loopAfter, List.range_succ, List.foldlM_append]

theorem loopAfter_eq {sha : List Nat → String} (h : DigestOK sha) (zeros : List String)
    (hz : ∀ z ∈ zeros, Parses z) (c : String) (pc : Parses c) (i n : Nat)
    (hn : n ≤ zeros.length) :
    loopAfter sha zeros c i n = some
      { hashPath := zeros.take n,
        currentHash := (climb sha (zeros.take n) c i).1,
        currentIndex := (climb sha (zeros.take n) c i).2 } := by
  induction n with
  | zero => simp [loopAfter, climb_nil]
  | succ n ih =>
    have hlt : n < zeros.length := hn
    have hget : zeros[n]? = some zeros[n] := List.getElem?_eq_getElem hlt
    have htake : zeros.take (n + 1) = zeros.take n ++ [zeros[n]] := by
      rw [List.take_succ, hget]; rfl
    rw [loopAfter_succ, ih (Nat.le_of_lt hlt), Option.some_bind,
      loopBody_eq sha zeros _ n zeros[n] hget (hz _ (List.getElem_mem hlt))
        (parses_climb h _ c pc i), htake, climb_snoc]

theorem script_eq {sha : List Nat → String} (h : DigestOK sha) (secret nullifier index : Nat) :
    script sha secret nullifier index = some
      { commitment := commitmentOf sha secret nullifier,
        nullifierHash := nullifierHashOf sha nullifier,
        zeros := zeroValues sha,
        hashPath := zeroValues sha,
        root := (climb sha (zeroValues sha) (commitmentOf sha secret nullifier) index).1,
        toml := proverToml
          (climb sha (zeroValues sha) (commitmentOf sha secret nullifier) index).1
          (nullifierHashOf sha nullifier) secret nullifier index (zeroValues sha) } := by
  have hl : loopAfter sha (zeroValues sha) (commitmentOf sha secret nullifier) index 3 = _ :=
    loopAfter_eq h (zeroValues sha) (parses_zeroValues h) _
      (parses_commitmentOf h secret nullifier) index 3
      (by simp [zeroValues])
  have ht : (zeroValues sha).take 3 = zeroValues sha := by simp [zeroValues]
  rw [ht] at hl
  simp [script, keccakHash_number2, keccakHash_number1, buildZeros_eq h, hl]

theorem digitChar_isLowerHexDigit (k : Nat) (hk : k < 16) :
    isLowerHexDigit (Nat.digitChar k) = true := by
  interval_cases k <;> decide

theorem toySha_ok : DigestOK toySha := by
  intro bs
  constructor
  · simp [toySha, String.length]
  · intro c hc
    simp only [toySha, List.mem_map, List.mem_range] at hc
    obtain ⟨i, _, rfl⟩ := hc
    exact digitChar_isLowerHexDigit _ (Nat.mod_lt _ (by norm_num))

theorem toDigitsCore_hex (f n : Nat) (ds : List Char)
    (hds : ∀ c ∈ ds, isLowerHexDigit c = true) :
    ∀ c ∈ Nat.toDigitsCore 16 f n ds, isLowerHexDigit c = true := by
  induction f generalizing n ds with
  | zero => simpa [Nat.toDigitsCore] using hds
  | succ f ih =>
    have hd : isLowerHexDigit (Nat.digitChar (n % 16)) = true :=
      digitChar_isLowerHexDigit _ (Nat.mod_lt _ (by norm_num))
    have hcons : ∀ c ∈ Nat.digitChar (n % 16) :: ds, isLowerHexDigit c = true := by
      intro c hc
      rcases List.mem_cons.mp hc with rfl | hc
      · exact hd
      · exact hds c hc
    simp only [Nat.toDigitsCore]
    split_ifs
    · exact hcons
    · exact ih _ _ hcons

theorem toString16_hex (n : Nat) : ∀ c ∈ (toString16 n).data, isLowerHexDigit c = true :=
  toDigitsCore_hex _ _ [] (by simp)

theorem toString16_length (n : Nat) (hn : n < 2 ^ 256) : (toString16 n).length ≤ 64 := by
  have h16 : n < 16 ^ 64 := by
    have : (16 : Nat) ^ 64 = 2 ^ 256 := by norm_num
    omega
  exact Nat.toDigitsCore_length 16 (by norm_num) (n + 1) n 64 h16 (by norm_num)

theorem padStart_data (s : String) (k : Nat) (c : Char) :
    (padStart s k c).data = List.replicate (k - s.length) c ++ s.data := by
  simp [padStart, String.data_append]

theorem padStart_length (s : String) (k : Nat) (c : Char) (h : s.length ≤ k) :
    (padStart s k c).length = k := by
  have hd := padStart_data s k c
  have : (padStart s k c).length = (padStart s k c).data.length := rfl
  rw [this, hd, List.length_append, List.length_replicate]
  have : s.data.length = s.length := rfl
  omega

theorem padStart_hex (s : String) (k : Nat)
    (hs : ∀ c ∈ s.data, isLowerHexDigit c = true) :
    ∀ c ∈ (padStart s k '0').data, isLowerHexDigit c = true := by
  intro c hc
  rw [padStart_data, List.mem_append] at hc
  rcases hc with hc | hc
  · rw [List.eq_of_mem_replicate hc]
    decide
  · exact hs c hc

theorem hexDecode_length (k : Nat) (cs : List Char) (hlen : cs.length = 2 * k)
    (hcs : ∀ c ∈ cs, isLowerHexDigit c = true) : (hexDecode cs).length = k := by
  induction k generalizing cs with
  | zero =>
    have : cs = [] := List.length_eq_zero.mp (by omega)
    subst this
    simp [hexDecode]
  | succ k ih =>
    match cs, hlen, hcs with
    | c1 :: c2 :: rest, hlen, hcs =>
      obtain ⟨a, ha⟩ := Option.isSome_iff_exists.mp
        (hexDigitValue_isSome (hcs c1 (by simp)))
      obtain ⟨b, hb⟩ := Option.isSome_iff_exists.mp
        (hexDigitValue_isSome (hcs c2 (by simp)))
      have hrest : rest.length = 2 * k := by
        simp only [List.length_cons] at hlen; omega
      simp only [hexDecode, ha, hb, List.length_cons]
      rw [ih rest hrest (fun c hc => hcs c (by simp [hc]))]
    | [_], hlen, _ => simp only [List.length_cons, List.length_nil] at hlen; omega
    | [], hlen, _ => simp only [List.length_nil] at hlen; omega

theorem packValue_length (n : Nat) (hn : n < 2 ^ 256) : (packValue n).length = 32 := by
  unfold packValue bufferFromHex
  apply hexDecode_length 32
  · exact padStart_length _ 64 '0' (toString16_length n hn)
  · exact padStart_hex _ 64 (toString16_hex n)

theorem parses_leafOne : Parses leafOne := by
  unfold Parses
  decide

theorem leafOne_ne_zeroLeaf : ¬ leafOne = zeroLeaf := by
  decide

theorem insertAfter_one {sha : List Nat → String} (h : DigestOK sha) (c e : String)
    (pc : Parses c) (pe : Parses e) :
    insertAfter (hash2 sha) (fieldToBytes32 (.number 0)) [some e] (some c)
      = .ok (some (digest2 sha (digest2 sha (digest2 sha e c) (digest2 sha zeroLeaf zeroLeaf))
                (digest2 sha (digest2 sha zeroLeaf zeroLeaf) (digest2 sha zeroLeaf zeroLeaf))),
             1,
             [some e, some (digest2 sha zeroLeaf zeroLeaf),
              some (digest2 sha (digest2 sha zeroLeaf zeroLeaf)
                (digest2 sha zeroLeaf zeroLeaf))]) := by
  simp [insertAfter, insertAll, specNew, specInsert, insertLevels, specZeros, maxDepth,
    List.iterate, fieldToBytes32_zero, bind, Except.bind, pure, Except.pure, Except.map,
    hash2_some, parses_zeroLeaf, pc, pe, parses_digest2 h]

theorem path_differs {sha : List Nat → String} (h : DigestOK sha) (secret nullifier : Nat)
    (e : String) (pe : Parses e) (hne : ¬ e = zeroLeaf) :
    ∃ out, script sha secret nullifier 1 = some out ∧
      insertAfter (hash2 sha) (fieldToBytes32 (.number 0)) [some e] (some out.commitment)
        ≠ .ok (some out.root, 1, out.hashPath.map some) := by
  refine ⟨_, script_eq h secret nullifier 1, ?_⟩
  rw [insertAfter_one h _ e (parses_commitmentOf h secret nullifier) pe]
  simp [zeroValues, hne]

/-! ## Claims -/

/-- C1: for index 0 and any secret and nullifier (in particular the hardcoded 7 and 11
of `main`), the script runs to the end and the hash path it builds has length exactly 3,
its entries being `zeros[0]`, `zeros[1]`, `zeros[2]` in this order.  No bound on secret
or nullifier is needed. -/
theorem C1_hashPath_is_zeros (sha : List Nat → String) (h : DigestOK sha)
    (secret nullifier : Nat) :
    ∃ out, script sha secret nullifier 0 = some out ∧ out.hashPath.length = 3 ∧
      ∃ z0 z1 z2, out.zeros[0]? = some z0 ∧ out.zeros[1]? = some z1 ∧
        out.zeros[2]? = some z2 ∧ out.hashPath = [z0, z1, z2] := by
  refine ⟨_, script_eq h secret nullifier 0, ?_, ?_⟩
  · simp [zeroValues]
  · exact ⟨_, _, _, rfl, rfl, rfl, rfl⟩

/-- Instance of C1 at the script's own constants, with the stand-in digest. -/
theorem C1_hashPath_is_zeros_witness :
    DigestOK toySha ∧
    ∃ out, main toySha = some out ∧ out.hashPath.length = 3 ∧
      ∃ z0 z1 z2, out.zeros[0]? = some z0 ∧ out.zeros[1]? = some z1 ∧
        out.zeros[2]? = some z2 ∧ out.hashPath = [z0, z1, z2] :=
  ⟨toySha_ok, C1_hashPath_is_zeros toySha toySha_ok 7 11⟩

/-- C2: verification round trip at index 0.  Running the specification's `verify` on the
commitment, index 0, the emitted hash path with every sibling marked as a right sibling,
and the emitted root, over the script's oracle `hash2(a, b) = keccakHash(a, b)`, returns
true: the fold of the path from the commitment is exactly the emitted root. -/
theorem C2_verify_round_trip (sha : List Nat → String) (h : DigestOK sha)
    (secret nullifier : Nat) :
    ∃ out, script sha secret nullifier 0 = some out ∧
      keccakHash sha [.number secret, .number nullifier] = some out.commitment ∧
      specVerify (hash2 sha) (some out.commitment) 0
        (out.hashPath.map (fun s => (some s, false))) (some out.root) = true := by
  refine ⟨_, script_eq h secret nullifier 0, keccakHash_number2 sha _ _, ?_⟩
  simp [specVerify, zeroValues, climb, hash2_some, parses_zeroLeaf, parses_digest2 h,
    parses_commitmentOf h]

/-- Instance of C2 at the script's own constants, with the stand-in digest. -/
theorem C2_verify_round_trip_witness :
    DigestOK toySha ∧
    ∃ out, main toySha = some out ∧
      keccakHash toySha [.number 7, .number 11] = some out.commitment ∧
      specVerify (hash2 toySha) (some out.commitment) 0
        (out.hashPath.map (fun s => (some s, false))) (some out.root) = true :=
  ⟨toySha_ok, C2_verify_round_trip toySha toySha_ok 7 11⟩

/-- C3: at index 0 the root the script computes is the root of the naive full rebuild of
the depth-3 tree over 8 leaves, leaf 0 being the commitment and leaves 1..7 the
empty-leaf value `zeros[0]`, every parent being `keccakHash(left, right)`. -/
theorem C3_root_is_naive_root (sha : List Nat → String) (h : DigestOK sha)
    (secret nullifier : Nat) :
    ∃ out z0, script sha secret nullifier 0 = some out ∧ out.zeros[0]? = some z0 ∧
      keccakHash sha [.number secret, .number nullifier] = some out.commitment ∧
      naiveRoot (hash2 sha) 3 (some out.commitment :: List.replicate 7 (some z0))
        = some (some out.root) := by
  refine ⟨_, zeroLeaf, script_eq h secret nullifier 0, rfl, keccakHash_number2 sha _ _, ?_⟩
  simp [naiveRoot, hashPairs, List.replicate, zeroValues, climb, hash2_some, parses_zeroLeaf,
    parses_digest2 h, parses_commitmentOf h]

/-- Instance of C3 at the script's own constants, with the stand-in digest. -/
theorem C3_root_is_naive_root_witness :
    DigestOK toySha ∧
    ∃ out z0, main toySha = some out ∧ out.zeros[0]? = some z0 ∧
      keccakHash toySha [.number 7, .number 11] = some out.commitment ∧
      naiveRoot (hash2 toySha) 3 (some out.commitment :: List.replicate 7 (some z0))
        = some (some out.root) :=
  ⟨toySha_ok, C3_root_is_naive_root toySha toySha_ok 7 11⟩

/-- C4: the zero values satisfy the zero-subtree recurrence.  `zeros[0]` is `0x` followed
by 64 characters `0`, and whenever `i + 1` is a valid index of `zeros`,
`zeros[i+1] = keccakHash(zeros[i], zeros[i])`. -/
theorem C4_zeros_recurrence (sha : List Nat → String) (h : DigestOK sha)
    (secret nullifier index : Nat) :
    ∃ out, script sha secret nullifier index = some out ∧
      out.zeros[0]? = some ("0x" ++ String.mk (List.replicate 64 '0')) ∧
      ∀ i, i + 1 < out.zeros.length →
        ∃ z, out.zeros[i]? = some z ∧
          keccakHash sha [.string z, .string z] = out.zeros[i + 1]? ∧
          (out.zeros[i + 1]?).isSome = true := by
  have hz : zeroLeaf = "0x" ++ String.mk (List.replicate 64 '0') := by decide
  refine ⟨_, script_eq h secret nullifier index, by simp [zeroValues, hz], ?_⟩
  intro i hi
  have p0 := parses_zeroLeaf
  have p1 := parses_digest2 h zeroLeaf zeroLeaf
  simp only [zeroValues, List.length_cons, List.length_nil] at hi
  have hi2 : i = 0 ∨ i = 1 := by omega
  rcases hi2 with rfl | rfl
  · exact ⟨zeroLeaf, rfl, by simp [zeroValues, keccakHash_string2 sha p0 p0], rfl⟩
  · exact ⟨_, rfl, by simp [zeroValues, keccakHash_string2 sha p1 p1], rfl⟩

/-- Instance of C4 at the script's own constants, with the stand-in digest. -/
theorem C4_zeros_recurrence_witness :
    DigestOK toySha ∧
    ∃ out, main toySha = some out ∧
      out.zeros[0]? = some ("0x" ++ String.mk (List.replicate 64 '0')) ∧
      ∀ i, i + 1 < out.zeros.length →
        ∃ z, out.zeros[i]? = some z ∧
          keccakHash toySha [.string z, .string z] = out.zeros[i + 1]? ∧
          (out.zeros[i + 1]?).isSome = true :=
  ⟨toySha_ok, C4_zeros_recurrence toySha toySha_ok 7 11 0⟩

/-- C5, as stated, fails: on the script's own constants the zero cache has three
entries, not four, and there is no `zeros[3]`. -/
theorem C5_zeros_length_not_four :
    ∃ out, main toySha = some out ∧ out.zeros.length = 3 ∧ out.zeros.length ≠ 4 ∧
      out.zeros[3]? = none :=
  ⟨_, script_eq toySha_ok 7 11 0, by simp [zeroValues], by simp [zeroValues],
    by simp [zeroValues]⟩

/-- C5, amended: the zero cache the script builds has length 3, one digest for each of
the levels 0, 1, 2 at which the path loop reads a sibling; an index is valid exactly
when it is below 3, so the cache has no `zeros[3]`. -/
theorem C5_zeros_length_three (sha : List Nat → String) (h : DigestOK sha)
    (secret nullifier index : Nat) :
    ∃ out, script sha secret nullifier index = some out ∧ out.zeros.length = 3 ∧
      ∀ l, (out.zeros[l]?).isSome = true ↔ l < 3 := by
  refine ⟨_, script_eq h secret nullifier index, by simp [zeroValues], ?_⟩
  intro l
  have hl : (zeroValues sha).length = 3 := by simp [zeroValues]
  constructor
  · intro hs
    by_contra hcon
    have hnone : (zeroValues sha)[l]? = none := List.getElem?_eq_none (by omega)
    simp only [hnone] at hs
    exact absurd hs (by simp)
  · intro hlt
    have hsome : (zeroValues sha)[l]? = some (zeroValues sha)[l] :=
      List.getElem?_eq_getElem (by omega)
    simp only [hsome, Option.isSome_some]

/-- Instance of the amended C5 at the script's own constants, with the stand-in
digest. -/
theorem C5_zeros_length_three_witness :
    DigestOK toySha ∧
    ∃ out, main toySha = some out ∧ out.zeros.length = 3 ∧
      ∀ l, (out.zeros[l]?).isSome = true ↔ l < 3 :=
  ⟨toySha_ok, C5_zeros_length_three toySha toySha_ok 7 11 0⟩

/-- C6, as stated, fails: with index 1 and one earlier leaf different from the empty
leaf, `insert` meets the stored left sibling (the earlier leaf) at level 0, while the
script's path has `zeros[0]` there. -/
theorem C6_path_differs_from_insert :
    ∃ out, script toySha 7 11 1 = some out ∧
      insertAfter (hash2 toySha) (fieldToBytes32 (.number 0)) [some leafOne]
          (some out.commitment)
        ≠ .ok (some out.root, 1, out.hashPath.map some) :=
  path_differs toySha_ok 7 11 leafOne parses_leafOne leafOne_ne_zeroLeaf

theorem insertAfter_zeros {sha : List Nat → String} (h : DigestOK sha) (c : String)
    (pc : Parses c) (i : Nat) (hi : i < 8) :
    insertAfter (hash2 sha) (fieldToBytes32 (.number 0))
        (List.replicate i (fieldToBytes32 (.number 0))) (some c)
      = .ok (some (climb sha (zeroValues sha) c i).1, i, (zeroValues sha).map some) := by
  interval_cases i <;>
  simp [insertAfter, insertAll, specNew, specInsert, insertLevels, specZeros, maxDepth,
    List.iterate, List.replicate, fieldToBytes32_zero, bind, Except.bind, pure, Except.pure,
    Except.map, zeroValues, climb, hash2_some, parses_zeroLeaf, pc, parses_digest2 h]

/-- C6, amended: with the index as a parameter, for every index `i < 8`, when the `i`
leaves inserted earlier into the empty depth-3 tree are all the empty-leaf value
`zeros[0]` (no leaf at all for the script's index 0), the root and the hash path of the
script for index `i` are the root and the siblings that `insert` produces when the
commitment is inserted as leaf number `i + 1`, at index `i`. -/
theorem C6_script_matches_insert_on_zero_leaves (sha : List Nat → String) (h : DigestOK sha)
    (secret nullifier i : Nat) (hi : i < 8) :
    ∃ out, script sha secret nullifier i = some out ∧
      insertAfter (hash2 sha) (fieldToBytes32 (.number 0))
          (List.replicate i (fieldToBytes32 (.number 0))) (some out.commitment)
        = .ok (some out.root, i, out.hashPath.map some) :=
  ⟨_, script_eq h secret nullifier i,
    insertAfter_zeros h _ (parses_commitmentOf h secret nullifier) i hi⟩

/-- Instance of the amended C6 with the stand-in digest, at index 5. -/
theorem C6_script_matches_insert_on_zero_leaves_witness :
    DigestOK toySha ∧ 5 < 8 ∧
    ∃ out, script toySha 7 11 5 = some out ∧
      insertAfter (hash2 toySha) (fieldToBytes32 (.number 0))
          (List.replicate 5 (fieldToBytes32 (.number 0))) (some out.commitment)
        = .ok (some out.root, 5, out.hashPath.map some) :=
  ⟨toySha_ok, by decide,
    C6_script_matches_insert_on_zero_leaves toySha toySha_ok 7 11 5 (by decide)⟩

theorem mod_two_eq_zero_iff_testBit (i l : Nat) :
    (i / 2 ^ l) % 2 = 0 ↔ i.testBit l = false := by
  rw [Nat.testBit_to_div_mod]
  simp only [decide_eq_false_iff_not]
  omega

/-- C7: with the index as a parameter, for every index `i` and every level `l` in
`0..2`, the loop reaches level `l` with `currentIndex = i / 2 ^ l` (floor division); the
even (left child) branch is the one taken exactly when bit `l` of `i` is 0 and the odd
(right child) branch exactly when it is 1; the iteration pushes `zeros[l]`, and the new
current hash is `keccakHash(currentHash, zeros[l])` in the left-child branch (current
hash first) and `keccakHash(zeros[l], currentHash)` in the right-child branch (current
hash second). -/
theorem C7_currentIndex_and_branch (sha : List Nat → String) (h : DigestOK sha)
    (secret nullifier i l : Nat) (hl : l < 3) :
    ∃ commitment zeros st st' z,
      keccakHash sha [.number secret, .number nullifier] = some commitment ∧
      buildZeros sha = some zeros ∧
      loopAfter sha zeros commitment i l = some st ∧
      st.currentIndex = i / 2 ^ l ∧
      (st.currentIndex % 2 = 0 ↔ i.testBit l = false) ∧
      (¬ st.currentIndex % 2 = 0 ↔ i.testBit l = true) ∧
      zeros[l]? = some z ∧
      loopBody sha zeros st l = some st' ∧
      st'.hashPath = st.hashPath ++ [z] ∧
      st'.currentIndex = i / 2 ^ (l + 1) ∧
      (i.testBit l = false →
        keccakHash sha [.string st.currentHash, .string z] = some st'.currentHash) ∧
      (i.testBit l = true →
        keccakHash sha [.string z, .string st.currentHash] = some st'.currentHash) := by
  have hlen : (zeroValues sha).length = 3 := by simp [zeroValues]
  have hlt : l < (zeroValues sha).length := by omega
  have pz := parses_zeroValues h
  have pc := parses_commitmentOf h secret nullifier
  have hidx : (climb sha ((zeroValues sha).take l) (commitmentOf sha secret nullifier) i).2
      = i / 2 ^ l := by
    rw [climb_snd, List.length_take, Nat.min_eq_left (by omega)]
  have pcur := parses_climb h ((zeroValues sha).take l) _ pc i
  have pzl : Parses (zeroValues sha)[l] := pz _ (List.getElem_mem hlt)
  have hget : (zeroValues sha)[l]? = some (zeroValues sha)[l] := List.getElem?_eq_getElem hlt
  have hbit := mod_two_eq_zero_iff_testBit i l
  refine ⟨_, _, _, _, (zeroValues sha)[l], keccakHash_number2 sha _ _, buildZeros_eq h,
    loopAfter_eq h _ pz _ pc i l (by omega), hidx, ?_, ?_, hget,
    loopBody_eq sha _ _ l _ hget pzl pcur, rfl, ?_, ?_, ?_⟩
  · simp only [hidx]; exact hbit
  · simp only [hidx, hbit]; simp
  · simp only [hidx, Nat.div_div_eq_div_mul, pow_succ]
  · intro hb
    simp only [hidx, hbit.mpr hb, if_true]
    exact keccakHash_string2 sha pcur pzl
  · intro hb
    have hodd : ¬ (i / 2 ^ l) % 2 = 0 := by
      intro he
      rw [hbit.mp he] at hb
      exact absurd hb (by simp)
    simp only [hidx, hodd, if_false]
    exact keccakHash_string2 sha pzl pcur

/-- Instance of C7 with the stand-in digest, at index 6 and level 1. -/
theorem C7_currentIndex_and_branch_witness :
    DigestOK toySha ∧ 1 < 3 ∧
    ∃ commitment zeros st st' z,
      keccakHash toySha [.number 7, .number 11] = some commitment ∧
      buildZeros toySha = some zeros ∧
      loopAfter toySha zeros commitment 6 1 = some st ∧
      st.currentIndex = 6 / 2 ^ 1 ∧
      (st.currentIndex % 2 = 0 ↔ Nat.testBit 6 1 = false) ∧
      (¬ st.currentIndex % 2 = 0 ↔ Nat.testBit 6 1 = true) ∧
      zeros[1]? = some z ∧
      loopBody toySha zeros st 1 = some st' ∧
      st'.hashPath = st.hashPath ++ [z] ∧
      st'.currentIndex = 6 / 2 ^ (1 + 1) ∧
      (Nat.testBit 6 1 = false →
        keccakHash toySha [.string st.currentHash, .string z] = some st'.currentHash) ∧
      (Nat.testBit 6 1 = true →
        keccakHash toySha [.string z, .string st.currentHash] = some st'.currentHash) :=
  ⟨toySha_ok, by decide, C7_currentIndex_and_branch toySha toySha_ok 7 11 6 1 (by decide)⟩

theorem enumFrom_lines {α β : Type} (f g : α → β) (hp : List α) (hne : hp ≠ []) (k : Nat) :
    (hp.enumFrom k).map (fun p => if p.1 < k + hp.length - 1 then f p.2 else g p.2)
      = hp.dropLast.map f ++ [g (hp.getLast hne)] := by
  induction hp generalizing k with
  | nil => exact absurd rfl hne
  | cons a rest ih =>
    cases rest with
    | nil => simp
    | cons b rest2 =>
      have hk : k + (a :: b :: rest2).length - 1 = (k + 1) + (b :: rest2).length - 1 := by
        simp only [List.length_cons]; omega
      have hlt : k < k + (a :: b :: rest2).length - 1 := by
        simp only [List.length_cons]; omega
      rw [List.enumFrom_cons, List.map_cons, hk, ih (List.cons_ne_nil b rest2) (k + 1)]
      rw [← hk]
      simp only [hlt, if_true, List.dropLast_cons₂, List.map_cons, List.cons_append,
        List.getLast_cons (List.cons_ne_nil b rest2)]

theorem hashPath_lines (hp : List String) (hne : hp ≠ []) :
    hp.enum.map (fun p =>
        "    \"" ++ p.2 ++ "\"" ++ (if p.1 < hp.length - 1 then "," else ""))
      = hp.dropLast.map (fun h => "    \"" ++ h ++ "\",")
          ++ ["    \"" ++ hp.getLast hne ++ "\""] := by
  have key := enumFrom_lines (fun h : String => "    \"" ++ h ++ "\",")
    (fun h : String => "    \"" ++ h ++ "\"") hp hne 0
  rw [← key, List.enum]
  apply List.map_congr_left
  intro p _
  simp only [Nat.zero_add]
  split_ifs
  · rw [String.append_assoc ("    \"" ++ p.2) "\"" ","]
    rfl
  · exact String.append_empty _

/-- C9: after the `=== Prover.toml ===` header the block consists of exactly the fields
`root`, `nullifier_hash`, `secret`, `nullifier`, `index`, `hash_path` in this order;
`root`, `nullifier_hash`, `secret` and `nullifier` are double-quoted, `index` is not,
and `hash_path` is a bracketed list with one double-quoted entry per line in path order,
every entry but the last followed by a comma and the last by none.  This holds for a
hash path of any non-zero length, and the block the script prints is this layout
applied to its own root, nullifier hash, constants and (non-empty) hash path. -/
theorem C9_proverToml_layout (sha : List Nat → String) (h : DigestOK sha)
    (root nullifierHash : String) (secret nullifier index : Nat)
    (hashPath : List String) (hne : hashPath ≠ []) :
    proverToml root nullifierHash secret nullifier index hashPath
      = ["\n=== Prover.toml ===",
         "root = \"" ++ root ++ "\"",
         "nullifier_hash = \"" ++ nullifierHash ++ "\"",
         "secret = \"" ++ numberToString secret ++ "\"",
         "nullifier = \"" ++ numberToString nullifier ++ "\"",
         "index = " ++ numberToString index,
         "hash_path = ["]
        ++ hashPath.dropLast.map (fun h => "    \"" ++ h ++ "\",")
        ++ ["    \"" ++ hashPath.getLast hne ++ "\""]
        ++ ["]"] ∧
    ∃ out, script sha secret nullifier index = some out ∧ out.hashPath ≠ [] ∧
      out.toml = proverToml out.root out.nullifierHash secret nullifier index out.hashPath := by
  refine ⟨?_, _, script_eq h secret nullifier index, by simp [zeroValues], rfl⟩
  unfold proverToml
  rw [hashPath_lines hashPath hne]
  simp only [List.append_assoc]

/-- Instance of C9: the block printed for a two-entry path, line by line. -/
theorem C9_proverToml_layout_witness :
    DigestOK toySha ∧ ["a", "b"] ≠ [] ∧
    proverToml "r" "n" 7 11 0 ["a", "b"]
      = ["\n=== Prover.toml ===", "root = \"r\"", "nullifier_hash = \"n\"",
         "secret = \"7\"", "nullifier = \"11\"", "index = 0", "hash_path = [",
         "    \"a\",", "    \"b\"", "]"] ∧
    ∃ out, main toySha = some out ∧ out.hashPath ≠ [] ∧
      out.toml = proverToml out.root out.nullifierHash 7 11 0 out.hashPath :=
  ⟨toySha_ok, by decide,
    (C9_proverToml_layout toySha toySha_ok "r" "n" 7 11 0 ["a", "b"] (by decide)).1.trans
      (by decide),
    (C9_proverToml_layout toySha toySha_ok "r" "n" 7 11 0 ["a", "b"] (by decide)).2⟩

theorem naiveRoot_eq_climb {sha : List Nat → String} (h : DigestOK sha) (c : String)
    (pc : Parses c) (i : Nat) (hi : i < 8) :
    naiveRoot (hash2 sha) 3 ((List.replicate 8 (some zeroLeaf)).set i (some c))
      = some (some (climb sha (zeroValues sha) c i).1) := by
  interval_cases i <;>
  simp [naiveRoot, hashPairs, List.replicate, zeroValues, climb, hash2_some,
    parses_zeroLeaf, pc, parses_digest2 h]

theorem verify_eq_climb {sha : List Nat → String} (h : DigestOK sha) (c : String)
    (pc : Parses c) (i : Nat) (hi : i < 8) :
    specVerify (hash2 sha) (some c) i
        (((zeroValues sha).enum).map (fun p => (some p.2, i.testBit p.1)))
        (some (climb sha (zeroValues sha) c i).1) = true := by
  interval_cases i <;>
  simp [specVerify, List.enum, List.enumFrom, zeroValues, climb, hash2_some,
    parses_zeroLeaf, pc, parses_digest2 h, Nat.testBit_to_div_mod]

/-- C10: with the index as a parameter, for every index `i < 8` and every secret and
nullifier, the root the script's loop computes (with `zeros[level]` as the sibling in
both branches) is the root of the naive full rebuild of the depth-3 tree over 8 leaves
whose leaf `i` is the commitment and whose other 7 leaves are `zeros[0]`; and folding
the emitted hash path from the commitment, the sibling of level `l` taken as a left
sibling exactly when bit `l` of `i` is 1, gives that root back. -/
theorem C10_root_is_naive_root_any_index (sha : List Nat → String) (h : DigestOK sha)
    (secret nullifier i : Nat) (hi : i < 8) :
    ∃ out z0, script sha secret nullifier i = some out ∧ out.zeros[0]? = some z0 ∧
      keccakHash sha [.number secret, .number nullifier] = some out.commitment ∧
      naiveRoot (hash2 sha) 3 ((List.replicate 8 (some z0)).set i (some out.commitment))
        = some (some out.root) ∧
      specVerify (hash2 sha) (some out.commitment) i
        (out.hashPath.enum.map (fun p => (some p.2, i.testBit p.1))) (some out.root)
        = true :=
  ⟨_, zeroLeaf, script_eq h secret nullifier i, rfl, keccakHash_number2 sha _ _,
    naiveRoot_eq_climb h _ (parses_commitmentOf h secret nullifier) i hi,
    verify_eq_climb h _ (parses_commitmentOf h secret nullifier) i hi⟩

/-- Instance of C10 with the stand-in digest, at index 5. -/
theorem C10_root_is_naive_root_any_index_witness :
    DigestOK toySha ∧ 5 < 8 ∧
    ∃ out z0, script toySha 7 11 5 = some out ∧ out.zeros[0]? = some z0 ∧
      keccakHash toySha [.number 7, .number 11] = some out.commitment ∧
      naiveRoot (hash2 toySha) 3 ((List.replicate 8 (some z0)).set 5 (some out.commitment))
        = some (some out.root) ∧
      specVerify (hash2 toySha) (some out.commitment) 5
        (out.hashPath.enum.map (fun p => (some p.2, Nat.testBit 5 p.1))) (some out.root)
        = true :=
  ⟨toySha_ok, by decide, C10_root_is_naive_root_any_index toySha toySha_ok 7 11 5 (by decide)⟩

/-! ## Lemmas on the hexadecimal encoding, the digest width and the packed bytes -/

theorem hexDigitValue_digitChar (k : Nat) (hk : k < 16) :
    hexDigitValue (Nat.digitChar k) = some k := by
  interval_cases k <;> decide

theorem hexDigitValue_lt {c : Char} {d : Nat} (h : hexDigitValue c = some d) : d < 16 := by
  unfold hexDigitValue at h
  split_ifs at h <;> simp only [Option.some.injEq] at h <;> omega

theorem parseHexDigits_toDigitsCore (f n : Nat) (ds : List Char) (hf : n < f) :
    parseHexDigits (Nat.toDigitsCore 16 f n ds) 0 = parseHexDigits ds n := by
  induction f generalizing n ds with
  | zero => omega
  | succ f ih =>
    have hd : hexDigitValue (Nat.digitChar (n % 16)) = some (n % 16) :=
      hexDigitValue_digitChar _ (Nat.mod_lt _ (by norm_num))
    simp only [Nat.toDigitsCore]
    split_ifs with h0
    · have hn : n % 16 = n := by omega
      rw [hn] at hd
      simp only [hn, parseHexDigits, hd, Nat.mul_zero, Nat.zero_add]
    · have hlt : n / 16 < f := by omega
      rw [ih (n / 16) _ hlt]
      have hn : 16 * (n / 16) + n % 16 = n := Nat.div_add_mod n 16
      simp only [parseHexDigits, hd, hn]

theorem parseHexDigits_toString16 (n : Nat) :
    parseHexDigits (toString16 n).data 0 = some n := by
  have h := parseHexDigits_toDigitsCore (n + 1) n [] (Nat.lt_succ_self n)
  simpa [toString16, Nat.toDigits, parseHexDigits] using h

theorem parseHexDigits_zeros (k : Nat) (cs : List Char) :
    parseHexDigits (List.replicate k '0' ++ cs) 0 = parseHexDigits cs 0 := by
  induction k with
  | zero => simp
  | succ k ih =>
    have h0 : hexDigitValue '0' = some 0 := by decide
    simp only [List.replicate_succ, List.cons_append, parseHexDigits, h0]
    exact ih

theorem parseHexDigits_padStart (n k : Nat) :
    parseHexDigits (padStart (toString16 n) k '0').data 0 = some n := by
  rw [padStart_data, parseHexDigits_zeros, parseHexDigits_toString16]

theorem stringToBigInt_0x (s : String) (hs : s.data ≠ []) :
    stringToBigInt ("0x" ++ s) = parseHexDigits s.data 0 := by
  unfold stringToBigInt
  have : ("0x" ++ s).data = '0' :: 'x' :: s.data := by
    simp [String.data_append]
  rw [this]
  cases hd : s.data with
  | nil => exact absurd hd hs
  | cons d ds => rfl

theorem data_ne_nil_of_length {s : String} {k : Nat} (h : s.length = k + 1) : s.data ≠ [] := by
  intro hnil
  have : s.length = 0 := by simp [String.length, hnil]
  omega

theorem length_0x (s : String) : ("0x" ++ s).length = s.length + 2 := by
  have h2 : "0x".length = 2 := by decide
  rw [String.length_append, h2]
  omega

theorem fieldToBytes32_eq (v : Value) (n : Nat) (hv : BigInt v = some n) :
    fieldToBytes32 v = some ("0x" ++ padStart (toString16 n) 64 '0') := by
  simp [fieldToBytes32, hv]

theorem stringToBigInt_bytes32 (n : Nat) (hn : n < 2 ^ 256) :
    stringToBigInt ("0x" ++ padStart (toString16 n) 64 '0') = some n := by
  have hl := padStart_length (toString16 n) 64 '0' (toString16_length n hn)
  rw [stringToBigInt_0x _ (data_ne_nil_of_length hl), parseHexDigits_padStart]

theorem parseHexDigits_lt (cs : List Char) (acc v : Nat)
    (h : parseHexDigits cs acc = some v) : v < (acc + 1) * 16 ^ cs.length := by
  induction cs generalizing acc with
  | nil =>
    simp only [parseHexDigits, Option.some.injEq] at h
    simp only [List.length_nil, pow_zero, Nat.mul_one]
    omega
  | cons c cs ih =>
    simp only [parseHexDigits] at h
    cases hd : hexDigitValue c with
    | none => simp [hd] at h
    | some d =>
      simp only [hd] at h
      have hlt := hexDigitValue_lt hd
      have hv := ih _ h
      have hle : (16 * acc + d + 1) * 16 ^ cs.length ≤ (16 * (acc + 1)) * 16 ^ cs.length :=
        Nat.mul_le_mul_right _ (by omega)
      have hpow : (acc + 1) * 16 ^ (c :: cs).length = (16 * (acc + 1)) * 16 ^ cs.length := by
        rw [List.length_cons, pow_succ]
        ring
      omega

theorem isDigestString_length {d : String} (h : IsDigestString d) : d.length = 66 := by
  obtain ⟨hex, rfl, hl, _⟩ := h
  rw [length_0x, hl]

theorem isDigestString_parse {d : String} (h : IsDigestString d) :
    ∃ v, stringToBigInt d = some v ∧ v < 2 ^ 256 := by
  obtain ⟨hex, rfl, hl, hc⟩ := h
  have hne : hex.data ≠ [] := data_ne_nil_of_length hl
  obtain ⟨v, hv⟩ := Option.isSome_iff_exists.mp (parseHexDigits_isSome hex.data hc 0)
  refine ⟨v, by rw [stringToBigInt_0x _ hne, hv], ?_⟩
  have hb := parseHexDigits_lt _ _ _ hv
  have hlen : hex.data.length = 64 := hl
  rw [hlen] at hb
  have : (16 : Nat) ^ 64 = 2 ^ 256 := by norm_num
  omega

theorem isDigestString_parses {d : String} (h : IsDigestString d) : Parses d := by
  obtain ⟨v, hv, _⟩ := isDigestString_parse h
  simp [Parses, hv]

theorem isFieldArgument_of_digest {d : String} (h : IsDigestString d) :
    IsFieldArgument d := by
  obtain ⟨v, hv, hlt⟩ := isDigestString_parse h
  exact ⟨v, hv, hlt, packValue_length v hlt⟩

theorem isDigestString_sha {sha : List Nat → String} (h : DigestOK sha) (bs : List Nat) :
    IsDigestString ("0x" ++ sha bs) :=
  ⟨sha bs, rfl, (h bs).1, (h bs).2⟩

theorem isDigestString_zeroLeaf : IsDigestString zeroLeaf :=
  ⟨String.mk (List.replicate 64 '0'), by decide, by decide, by
    intro c hc
    rw [List.eq_of_mem_replicate hc]
    decide⟩

theorem isDigestString_zeroValues {sha : List Nat → String} (h : DigestOK sha) :
    ∀ z ∈ zeroValues sha, IsDigestString z := by
  intro z hz
  simp only [zeroValues, List.mem_cons, List.mem_singleton, List.not_mem_nil, or_false] at hz
  rcases hz with rfl | rfl | rfl
  · exact isDigestString_zeroLeaf
  · exact isDigestString_sha h _
  · exact isDigestString_sha h _

theorem isDigestString_climb {sha : List Nat → String} (h : DigestOK sha) (zs : List String)
    (c : String) (hc : IsDigestString c) (i : Nat) : IsDigestString (climb sha zs c i).1 := by
  induction zs generalizing c i with
  | nil => simpa [climb_nil] using hc
  | cons z zs ih =>
    rw [climb_cons]
    apply ih
    split_ifs <;> exact isDigestString_sha h _

theorem keccakHash_eq_packedBuffer (sha : List Nat → String) (vs : List Value) :
    keccakHash sha vs = (packedBuffer vs).map (fun b => "0x" ++ sha b) := by
  unfold keccakHash packedBuffer
  cases hm : List.mapM (fun v => do
      let n ← BigInt v
      let hex := padStart (toString16 n) 64 '0'
      pure (bufferFromHex hex)) vs with
  | none => simp [hm]
  | some p => simp [hm]

theorem keccakHash_isDigestString {sha : List Nat → String} (h : DigestOK sha)
    (vs : List Value) (d : String) (hd : keccakHash sha vs = some d) : IsDigestString d := by
  rw [keccakHash_eq_packedBuffer] at hd
  cases hp : packedBuffer vs with
  | none => simp [hp] at hd
  | some b =>
    simp only [hp, Option.map_some', Option.some.injEq] at hd
    rw [← hd]
    exact isDigestString_sha h b

theorem parseHexDigits_hexDecode (k : Nat) (cs : List Char) (hlen : cs.length = 2 * k)
    (hcs : ∀ c ∈ cs, isLowerHexDigit c = true) (acc : Nat) :
    parseHexDigits cs acc
      = some ((hexDecode cs).foldl (fun a b => 256 * a + b) acc) := by
  induction k generalizing cs acc with
  | zero =>
    have : cs = [] := List.length_eq_zero.mp (by omega)
    subst this
    simp [hexDecode, parseHexDigits]
  | succ k ih =>
    match cs, hlen, hcs with
    | c1 :: c2 :: rest, hlen, hcs =>
      obtain ⟨a, ha⟩ := Option.isSome_iff_exists.mp
        (hexDigitValue_isSome (hcs c1 (by simp)))
      obtain ⟨b, hb⟩ := Option.isSome_iff_exists.mp
        (hexDigitValue_isSome (hcs c2 (by simp)))
      have hrest : rest.length = 2 * k := by
        simp only [List.length_cons] at hlen; omega
      have hacc : 16 * (16 * acc + a) + b = 256 * acc + (16 * a + b) := by omega
      simp only [parseHexDigits, hexDecode, ha, hb, List.foldl_cons, hacc]
      exact ih rest hrest (fun c hc => hcs c (by simp [hc])) _
    | [_], hlen, _ => simp only [List.length_cons, List.length_nil] at hlen; omega
    | [], hlen, _ => simp only [List.length_nil] at hlen; omega

theorem hexDecode_lt (k : Nat) (cs : List Char) (hlen : cs.length ≤ k) :
    ∀ b ∈ hexDecode cs, b < 256 := by
  induction k using Nat.strong_induction_on generalizing cs with
  | _ k ih =>
    match cs, hlen with
    | c1 :: c2 :: rest, hlen =>
      intro b hb
      simp only [hexDecode] at hb
      cases ha : hexDigitValue c1 with
      | none => simp [ha] at hb
      | some x =>
        cases hy : hexDigitValue c2 with
        | none => simp [ha, hy] at hb
        | some y =>
          simp only [ha, hy, List.mem_cons] at hb
          rcases hb with rfl | hb
          · have := hexDigitValue_lt ha
            have := hexDigitValue_lt hy
            omega
          · simp only [List.length_cons] at hlen
            exact ih rest.length (by omega) rest (Nat.le_refl _) b hb
    | [_], _ => simp [hexDecode]
    | [], _ => simp [hexDecode]

theorem bytesValue_packValue (n : Nat) (hn : n < 2 ^ 256) : bytesValue (packValue n) = n := by
  have hl := padStart_length (toString16 n) 64 '0' (toString16_length n hn)
  have h := parseHexDigits_hexDecode 32 (padStart (toString16 n) 64 '0').data hl
    (padStart_hex _ 64 (toString16_hex n)) 0
  rw [parseHexDigits_padStart] at h
  simp only [Option.some.injEq] at h
  exact h.symm

theorem packValue_lt (n : Nat) : ∀ b ∈ packValue n, b < 256 :=
  hexDecode_lt _ _ (Nat.le_refl _)

theorem bytesValue_append_singleton (bs : List Nat) (b : Nat) :
    bytesValue (bs ++ [b]) = 256 * bytesValue bs + b := by
  simp [bytesValue, List.foldl_append]

theorem bigEndian_bytesValue (bs : List Nat) (hb : ∀ b ∈ bs, b < 256) :
    bigEndian bs.length (bytesValue bs) = bs := by
  induction bs using List.reverseRecOn with
  | nil => rfl
  | append_singleton init b ih =>
    have hlast : b < 256 := hb b (by simp)
    have hinit : ∀ x ∈ init, x < 256 := fun x hx => hb x (by simp [hx])
    have hdiv : (256 * bytesValue init + b) / 256 = bytesValue init := by omega
    have hmod : (256 * bytesValue init + b) % 256 = b := by omega
    rw [List.length_append, List.length_singleton, bytesValue_append_singleton, bigEndian,
      hdiv, hmod, ih hinit]

theorem packValue_eq_bigEndian (n : Nat) (hn : n < 2 ^ 256) : packValue n = bigEndian 32 n := by
  have h := bigEndian_bytesValue (packValue n) (packValue_lt n)
  rw [packValue_length n hn, bytesValue_packValue n hn] at h
  exact h.symm

theorem bigEndian_length (k n : Nat) : (bigEndian k n).length = k := by
  induction k generalizing n with
  | zero => rfl
  | succ k ih => simp [bigEndian, ih]

theorem map_bigEndian_eq (ns : List Nat) (hn : ∀ n ∈ ns, n < 2 ^ 256) :
    ns.map packValue = ns.map (bigEndian 32) :=
  List.map_congr_left (fun n hm => packValue_eq_bigEndian n (hn n hm))

theorem flatten_bigEndian_length (ns : List Nat) :
    ((ns.map (bigEndian 32)).flatten).length = 32 * ns.length := by
  induction ns with
  | nil => rfl
  | cons n ns ih =>
    simp only [List.map_cons, List.flatten_cons, List.length_append, bigEndian_length, ih,
      List.length_cons]
    omega

theorem bigEndian_inj (n m : Nat) (hn : n < 2 ^ 256) (hm : m < 2 ^ 256)
    (h : bigEndian 32 n = bigEndian 32 m) : n = m := by
  rw [← packValue_eq_bigEndian n hn, ← packValue_eq_bigEndian m hm] at h
  have := congrArg bytesValue h
  rwa [bytesValue_packValue n hn, bytesValue_packValue m hm] at this

theorem flatten_bigEndian_inj (ns ms : List Nat) (hn : ∀ n ∈ ns, n < 2 ^ 256)
    (hm : ∀ m ∈ ms, m < 2 ^ 256)
    (h : (ns.map (bigEndian 32)).flatten = (ms.map (bigEndian 32)).flatten) : ns = ms := by
  induction ns generalizing ms with
  | nil =>
    cases ms with
    | nil => rfl
    | cons m ms =>
      have := congrArg List.length h
      rw [flatten_bigEndian_length, flatten_bigEndian_length] at this
      simp only [List.length_nil, List.length_cons] at this
      omega
  | cons n ns ih =>
    cases ms with
    | nil =>
      have := congrArg List.length h
      rw [flatten_bigEndian_length, flatten_bigEndian_length] at this
      simp only [List.length_nil, List.length_cons] at this
      omega
    | cons m ms =>
      simp only [List.map_cons, List.flatten_cons] at h
      have hlen : (bigEndian 32 n).length = (bigEndian 32 m).length := by
        rw [bigEndian_length, bigEndian_length]
      obtain ⟨h1, h2⟩ := List.append_inj h hlen
      have hnm := bigEndian_inj n m (hn n (by simp)) (hm m (by simp)) h1
      rw [hnm, ih ms (fun x hx => hn x (by simp [hx])) (fun x hx => hm x (by simp [hx])) h2]

theorem packedBuffer_eq (vs : List Value) (ns : List Nat)
    (hv : List.Forall₂ (fun v n => BigInt v = some n) vs ns) :
    packedBuffer vs = some ((ns.map packValue).flatten) := by
  unfold packedBuffer
  have hmap : List.mapM (fun v => do
      let n ← BigInt v
      let hex := padStart (toString16 n) 64 '0'
      pure (bufferFromHex hex)) vs = some (ns.map packValue) := by
    induction hv with
    | nil => rfl
    | cons hvn _ ih =>
      rw [List.mapM_cons, ih]
      simp [hvn, packValue]
  rw [hmap]
  rfl

theorem packedBuffer_bigEndian (vs : List Value) (ns : List Nat)
    (hv : List.Forall₂ (fun v n => BigInt v = some n) vs ns) (hn : ∀ n ∈ ns, n < 2 ^ 256) :
    packedBuffer vs = some ((ns.map (bigEndian 32)).flatten) := by
  rw [packedBuffer_eq vs ns hv, map_bigEndian_eq ns hn]

theorem prepend_0x_inj (a b : String) : "0x" ++ a = "0x" ++ b ↔ a = b := by
  constructor
  · intro h
    have hd := congrArg String.data h
    simp only [String.data_append] at hd
    exact String.ext (List.append_cancel_left hd)
  · intro h
    rw [h]

/-! ## Claims on the encoding -/

/-- C11: digest-width closure.  Every value `keccakHash` returns is `0x` followed by
exactly 64 hexadecimal digits (66 characters), so `BigInt` of it is in `[0, 2^256)` and
is packed to exactly 32 bytes.  Hence, for secret and nullifier in `[0, 2^256)` and any
index, the script ends normally; every digest it emits (commitment, nullifier hash, all
zeros, all hash-path entries, root) has that form and so the same width of 66
characters; and every argument it passes to `keccakHash` (secret, nullifier,
`BigInt(zeros[i-1])`, `BigInt(zeros[level])`, and `BigInt(currentHash)` at the start of
each level, the commitment at level 0) is in `[0, 2^256)` and packs to 32 bytes. -/
theorem C11_digest_width_closure (sha : List Nat → String) (h : DigestOK sha)
    (secret nullifier index : Nat) (hs : secret < 2 ^ 256) (hn : nullifier < 2 ^ 256) :
    (∀ vs d, keccakHash sha vs = some d →
      IsDigestString d ∧ d.length = 66 ∧ IsFieldArgument d) ∧
    (bufferFromHex (padStart (toString16 secret) 64 '0')).length = 32 ∧
    (bufferFromHex (padStart (toString16 nullifier) 64 '0')).length = 32 ∧
    ∃ out, script sha secret nullifier index = some out ∧
      (IsDigestString out.commitment ∧ out.commitment.length = 66) ∧
      (IsDigestString out.nullifierHash ∧ out.nullifierHash.length = 66) ∧
      (IsDigestString out.root ∧ out.root.length = 66) ∧
      (∀ z ∈ out.zeros, IsDigestString z ∧ z.length = 66 ∧ IsFieldArgument z) ∧
      (∀ p ∈ out.hashPath, IsDigestString p ∧ p.length = 66 ∧ IsFieldArgument p) ∧
      (∀ l, l < 3 → ∃ st, loopAfter sha out.zeros out.commitment index l = some st ∧
        IsDigestString st.currentHash ∧ IsFieldArgument st.currentHash) := by
  have hc : IsDigestString (commitmentOf sha secret nullifier) := isDigestString_sha h _
  have hnh : IsDigestString (nullifierHashOf sha nullifier) := isDigestString_sha h _
  have hz := isDigestString_zeroValues h
  refine ⟨?_, packValue_length secret hs, packValue_length nullifier hn, _,
    script_eq h secret nullifier index, ⟨hc, isDigestString_length hc⟩,
    ⟨hnh, isDigestString_length hnh⟩, ?_, ?_, ?_, ?_⟩
  · intro vs d hd
    have hdig := keccakHash_isDigestString h vs d hd
    exact ⟨hdig, isDigestString_length hdig, isFieldArgument_of_digest hdig⟩
  · have hr := isDigestString_climb h (zeroValues sha) _ hc index
    exact ⟨hr, isDigestString_length hr⟩
  · intro z hzm
    exact ⟨hz z hzm, isDigestString_length (hz z hzm), isFieldArgument_of_digest (hz z hzm)⟩
  · intro p hpm
    exact ⟨hz p hpm, isDigestString_length (hz p hpm), isFieldArgument_of_digest (hz p hpm)⟩
  · intro l hl
    have hcur := isDigestString_climb h ((zeroValues sha).take l) _ hc index
    exact ⟨_, loopAfter_eq h (zeroValues sha) (parses_zeroValues h) _
      (parses_commitmentOf h secret nullifier) index l (by simp [zeroValues]; omega),
      hcur, isFieldArgument_of_digest hcur⟩

/-- Instance of C11 at the script's own constants, with the stand-in digest. -/
theorem C11_digest_width_closure_witness :
    DigestOK toySha ∧ 7 < 2 ^ 256 ∧ 11 < 2 ^ 256 ∧
    (∀ vs d, keccakHash toySha vs = some d →
      IsDigestString d ∧ d.length = 66 ∧ IsFieldArgument d) ∧
    (bufferFromHex (padStart (toString16 7) 64 '0')).length = 32 ∧
    (bufferFromHex (padStart (toString16 11) 64 '0')).length = 32 ∧
    ∃ out, main toySha = some out ∧
      (IsDigestString out.commitment ∧ out.commitment.length = 66) ∧
      (IsDigestString out.nullifierHash ∧ out.nullifierHash.length = 66) ∧
      (IsDigestString out.root ∧ out.root.length = 66) ∧
      (∀ z ∈ out.zeros, IsDigestString z ∧ z.length = 66 ∧ IsFieldArgument z) ∧
      (∀ p ∈ out.hashPath, IsDigestString p ∧ p.length = 66 ∧ IsFieldArgument p) ∧
      (∀ l, l < 3 → ∃ st, loopAfter toySha out.zeros out.commitment 0 l = some st ∧
        IsDigestString st.currentHash ∧ IsFieldArgument st.currentHash) :=
  ⟨toySha_ok, by norm_num, by norm_num,
    C11_digest_width_closure toySha toySha_ok 7 11 0 (by norm_num) (by norm_num)⟩

/-- C12: the bytes `keccakHash` feeds to the digest are an injective encoding of the
argument list on the field domain.  For values converting to the integers `ns`, each
in `[0, 2^256)`, the packed buffer is the concatenation of the 32-byte big-endian
encodings of the `ns` and has length exactly `32 * n`; it is the buffer `keccakHash`
hashes; two argument lists, of equal or different arity, pack to the same bytes only if
they are the same list of integers; in particular the 64-byte preimage of a commitment
`keccakHash(secret, nullifier)` is never the 32-byte preimage of a nullifier hash
`keccakHash(x)`. -/
theorem C12_packing_is_injective (vs ws : List Value) (ns ms : List Nat)
    (hv : List.Forall₂ (fun v n => BigInt v = some n) vs ns)
    (hw : List.Forall₂ (fun v n => BigInt v = some n) ws ms)
    (hn : ∀ n ∈ ns, n < 2 ^ 256) (hm : ∀ m ∈ ms, m < 2 ^ 256)
    (secret nullifier x : Nat) (hs : secret < 2 ^ 256) (hnu : nullifier < 2 ^ 256)
    (hx : x < 2 ^ 256) :
    packedBuffer vs = some ((ns.map (bigEndian 32)).flatten) ∧
    ((ns.map (bigEndian 32)).flatten).length = 32 * ns.length ∧
    (∀ sha, keccakHash sha vs = some ("0x" ++ sha ((ns.map (bigEndian 32)).flatten))) ∧
    (packedBuffer vs = packedBuffer ws → ns = ms) ∧
    ∃ p q, packedBuffer [.number secret, .number nullifier] = some p ∧ p.length = 64 ∧
      packedBuffer [.number x] = some q ∧ q.length = 32 ∧ p ≠ q := by
  have hpv := packedBuffer_bigEndian vs ns hv hn
  have hpw := packedBuffer_bigEndian ws ms hw hm
  have h2 : packedBuffer [.number secret, .number nullifier]
      = some (([secret, nullifier].map (bigEndian 32)).flatten) :=
    packedBuffer_bigEndian _ _ (List.Forall₂.cons rfl (List.Forall₂.cons rfl List.Forall₂.nil))
      (by
        intro n hmem
        simp only [List.mem_cons, List.mem_singleton, List.not_mem_nil, or_false] at hmem
        rcases hmem with rfl | rfl
        · exact hs
        · exact hnu)
  have h1 : packedBuffer [.number x] = some (([x].map (bigEndian 32)).flatten) :=
    packedBuffer_bigEndian _ _ (List.Forall₂.cons rfl List.Forall₂.nil)
      (by
        intro n hmem
        simp only [List.mem_singleton] at hmem
        rw [hmem]
        exact hx)
  have hl2 := flatten_bigEndian_length [secret, nullifier]
  have hl1 := flatten_bigEndian_length [x]
  refine ⟨hpv, flatten_bigEndian_length ns, ?_, ?_, _, _, h2, hl2, h1, hl1, ?_⟩
  · intro sha
    rw [keccakHash_eq_packedBuffer, hpv]
    rfl
  · intro heq
    rw [hpv, hpw, Option.some.injEq] at heq
    exact flatten_bigEndian_inj ns ms hn hm heq
  · intro heq
    have := congrArg List.length heq
    rw [hl2, hl1] at this
    simp only [List.length_cons, List.length_nil] at this
    omega

/-- Instance of C12: the argument lists `(7, 11n)` and `(1803)`, and the script's
constants for the commitment and the nullifier hash. -/
theorem C12_packing_is_injective_witness :
    List.Forall₂ (fun v n => BigInt v = some n) [.number 7, .bigint 11] [7, 11] ∧
    List.Forall₂ (fun v n => BigInt v = some n) [.number 1803] [1803] ∧
    (∀ n ∈ [7, 11], n < 2 ^ 256) ∧ (∀ m ∈ [1803], m < 2 ^ 256) ∧
    7 < 2 ^ 256 ∧ 11 < 2 ^ 256 ∧
    packedBuffer [.number 7, .bigint 11] = some (([7, 11].map (bigEndian 32)).flatten) ∧
    (([7, 11].map (bigEndian 32)).flatten).length = 32 * [7, 11].length ∧
    (∀ sha, keccakHash sha [.number 7, .bigint 11]
      = some ("0x" ++ sha (([7, 11].map (bigEndian 32)).flatten))) ∧
    (packedBuffer [.number 7, .bigint 11] = packedBuffer [.number 1803]
      → [7, 11] = [1803]) ∧
    ∃ p q, packedBuffer [.number 7, .number 11] = some p ∧ p.length = 64 ∧
      packedBuffer [.number 11] = some q ∧ q.length = 32 ∧ p ≠ q :=
  have hb : ∀ n ∈ [7, 11], n < 2 ^ 256 := by
    intro n hmem
    simp only [List.mem_cons, List.mem_singleton, List.not_mem_nil, or_false] at hmem
    rcases hmem with rfl | rfl <;> norm_num
  have hv : List.Forall₂ (fun v n => BigInt v = some n) [.number 7, .bigint 11] [7, 11] :=
    List.Forall₂.cons rfl (List.Forall₂.cons rfl List.Forall₂.nil)
  have hw : List.Forall₂ (fun v n => BigInt v = some n) [.number 1803] [1803] :=
    List.Forall₂.cons rfl List.Forall₂.nil
  have hc : ∀ m ∈ [1803], m < 2 ^ 256 := by
    intro m hmem
    simp only [List.mem_singleton] at hmem
    rw [hmem]
    norm_num
  ⟨hv, hw, hb, hc, by norm_num, by norm_num,
    C12_packing_is_injective [.number 7, .bigint 11] [.number 1803] [7, 11] [1803]
      hv hw hb hc 7 11 11 (by norm_num) (by norm_num) (by norm_num)⟩


/-- C13: `fieldToBytes32` is a fixed-width, lossless encoding on the field domain.  For
every integer `v` with `0 <= v < 2^256`, given as a Number or as a BigInt,
`fieldToBytes32(v)` is `0x` followed by exactly 64 lowercase hexadecimal digits, 66
characters in total, and `BigInt` of that string is `v` again. -/
theorem C13_fieldToBytes32_round_trip (v : Nat) (hv : v < 2 ^ 256) :
    ∃ s hex, fieldToBytes32 (.number v) = some s ∧ fieldToBytes32 (.bigint v) = some s ∧
      s = "0x" ++ hex ∧ hex.length = 64 ∧ (∀ c ∈ hex.data, isLowerHexDigit c = true) ∧
      s.length = 66 ∧ BigInt (.string s) = some v := by
  have hl := padStart_length (toString16 v) 64 '0' (toString16_length v hv)
  refine ⟨_, padStart (toString16 v) 64 '0', fieldToBytes32_eq (.number v) v rfl,
    fieldToBytes32_eq (.bigint v) v rfl, rfl, hl, padStart_hex _ 64 (toString16_hex v), ?_,
    stringToBigInt_bytes32 v hv⟩
  rw [length_0x, hl]

/-- Instance of C13 at `v = 255`, with the string written out. -/
theorem C13_fieldToBytes32_round_trip_witness :
    255 < 2 ^ 256 ∧
    fieldToBytes32 (.number 255)
      = some "0x00000000000000000000000000000000000000000000000000000000000000ff" ∧
    ∃ s hex, fieldToBytes32 (.number 255) = some s ∧ fieldToBytes32 (.bigint 255) = some s ∧
      s = "0x" ++ hex ∧ hex.length = 64 ∧ (∀ c ∈ hex.data, isLowerHexDigit c = true) ∧
      s.length = 66 ∧ BigInt (.string s) = some 255 :=
  ⟨by norm_num, by decide, C13_fieldToBytes32_round_trip 255 (by norm_num)⟩

/-- C14 (what the code does instead): for every argument list converting to integers in
`[0, 2^256)`, `keccakHash` returns `0x` followed by the SHA-256 hexadecimal digest
(`crypto.createHash('sha256')`) of the concatenated 32-byte big-endian encodings; that
is the Keccak-256 digest `keccak256Hex` of the same bytes only where the two digests
coincide. -/
theorem C14_keccakHash_returns_sha256 (sha256Hex keccak256Hex : List Nat → String)
    (vs : List Value) (ns : List Nat)
    (hv : List.Forall₂ (fun v n => BigInt v = some n) vs ns)
    (hn : ∀ n ∈ ns, n < 2 ^ 256) :
    keccakHash sha256Hex vs
      = some ("0x" ++ sha256Hex ((ns.map (bigEndian 32)).flatten)) ∧
    (keccakHash sha256Hex vs = some ("0x" ++ keccak256Hex ((ns.map (bigEndian 32)).flatten))
      ↔ keccak256Hex ((ns.map (bigEndian 32)).flatten)
          = sha256Hex ((ns.map (bigEndian 32)).flatten)) := by
  have hk : keccakHash sha256Hex vs
      = some ("0x" ++ sha256Hex ((ns.map (bigEndian 32)).flatten)) := by
    rw [keccakHash_eq_packedBuffer, packedBuffer_bigEndian vs ns hv hn]
    rfl
  refine ⟨hk, ?_⟩
  rw [hk, Option.some.injEq, prepend_0x_inj]
  exact eq_comm

/-- Instance of C14 at the script's call `keccakHash(7, 11)`, with the stand-in digest in
the place of SHA-256 and a second one in the place of Keccak-256. -/
theorem C14_keccakHash_returns_sha256_witness :
    List.Forall₂ (fun v n => BigInt v = some n) [.number 7, .number 11] [7, 11] ∧
    (∀ n ∈ [7, 11], n < 2 ^ 256) ∧
    keccakHash toySha [.number 7, .number 11]
      = some ("0x" ++ toySha (([7, 11].map (bigEndian 32)).flatten)) ∧
    (keccakHash toySha [.number 7, .number 11]
        = some ("0x" ++ toyKeccak (([7, 11].map (bigEndian 32)).flatten))
      ↔ toyKeccak (([7, 11].map (bigEndian 32)).flatten)
          = toySha (([7, 11].map (bigEndian 32)).flatten)) :=
  have hb : ∀ n ∈ [7, 11], n < 2 ^ 256 := by
    intro n hmem
    simp only [List.mem_cons, List.mem_singleton, List.not_mem_nil, or_false] at hmem
    rcases hmem with rfl | rfl <;> norm_num
  have hv : List.Forall₂ (fun v n => BigInt v = some n) [.number 7, .number 11] [7, 11] :=
    List.Forall₂.cons rfl (List.Forall₂.cons rfl List.Forall₂.nil)
  ⟨hv, hb, C14_keccakHash_returns_sha256 toySha toyKeccak [.number 7, .number 11] [7, 11]
    hv hb⟩

/-! ## The nullifier hash and its preimage -/

/-- C8: the nullifier hash the script emits is the one-argument hash
`keccakHash(nullifier)`: for a nullifier below `2 ^ 256` it is `0x` followed by the
digest of the single 32-byte big-endian encoding of the nullifier, an encoding from
which the nullifier is read back, so the hashed bytes are the nullifier and nothing
else.  The commitment is the two-argument hash `keccakHash(secret, nullifier)`, the
digest of the packed secret followed by that same encoding (both big-endian when the
secret is below `2 ^ 256` too).  Two runs with the same nullifier, whatever their
secrets and indices, emit the same nullifier hash and the same `nullifier_hash` line of
Prover.toml. -/
theorem C8_nullifierHash_depends_on_nullifier_only (sha : List Nat → String)
    (h : DigestOK sha) (nullifier secret1 index1 secret2 index2 : Nat)
    (hn : nullifier < 2 ^ 256) :
    ∃ out1 out2, script sha secret1 nullifier index1 = some out1 ∧
      script sha secret2 nullifier index2 = some out2 ∧
      keccakHash sha [.number nullifier] = some out1.nullifierHash ∧
      out1.nullifierHash
        = "0x" ++ sha (bufferFromHex (padStart (toString16 nullifier) 64 '0')) ∧
      (bufferFromHex (padStart (toString16 nullifier) 64 '0')).length = 32 ∧
      bufferFromHex (padStart (toString16 nullifier) 64 '0') = bigEndian 32 nullifier ∧
      bytesValue (bigEndian 32 nullifier) = nullifier ∧
      out1.nullifierHash = "0x" ++ sha (bigEndian 32 nullifier) ∧
      packedBuffer [.number nullifier] = some (bigEndian 32 nullifier) ∧
      keccakHash sha [.number secret1, .number nullifier] = some out1.commitment ∧
      keccakHash sha [.number secret2, .number nullifier] = some out2.commitment ∧
      out1.commitment
        = "0x" ++ sha (bufferFromHex (padStart (toString16 secret1) 64 '0')
            ++ bigEndian 32 nullifier) ∧
      (secret1 < 2 ^ 256 →
        out1.commitment = "0x" ++ sha (bigEndian 32 secret1 ++ bigEndian 32 nullifier)) ∧
      out1.nullifierHash = out2.nullifierHash ∧
      out1.toml[2]? = some ("nullifier_hash = \"" ++ out1.nullifierHash ++ "\"") ∧
      out1.toml[2]? = out2.toml[2]? := by
  have hbe : packValue nullifier = bigEndian 32 nullifier :=
    packValue_eq_bigEndian nullifier hn
  have hval : bytesValue (bigEndian 32 nullifier) = nullifier := by
    rw [← hbe]
    exact bytesValue_packValue nullifier hn
  have hnh : nullifierHashOf sha nullifier = "0x" ++ sha (bigEndian 32 nullifier) := by
    rw [← hbe]
    rfl
  have hpb : packedBuffer [.number nullifier] = some (bigEndian 32 nullifier) := by
    have hp := packedBuffer_bigEndian [.number nullifier] [nullifier]
      (List.Forall₂.cons rfl List.Forall₂.nil)
      (by
        intro n hmem
        simp only [List.mem_singleton] at hmem
        rw [hmem]
        exact hn)
    simpa using hp
  have hcm : commitmentOf sha secret1 nullifier
      = "0x" ++ sha (bufferFromHex (padStart (toString16 secret1) 64 '0')
          ++ bigEndian 32 nullifier) := by
    rw [← hbe]
    rfl
  have hcm2 : secret1 < 2 ^ 256 → commitmentOf sha secret1 nullifier
      = "0x" ++ sha (bigEndian 32 secret1 ++ bigEndian 32 nullifier) := by
    intro hs
    rw [← hbe, ← packValue_eq_bigEndian secret1 hs]
    rfl
  exact ⟨_, _, script_eq h secret1 nullifier index1, script_eq h secret2 nullifier index2,
    keccakHash_number1 sha nullifier, rfl, packValue_length nullifier hn, hbe, hval, hnh,
    hpb, keccakHash_number2 sha secret1 nullifier,
    keccakHash_number2 sha secret2 nullifier, hcm, hcm2, rfl, rfl, rfl⟩

/-- Instance of C8 with the stand-in digest: secrets 7 and 8, indices 0 and 3. -/
theorem C8_nullifierHash_depends_on_nullifier_only_witness :
    DigestOK toySha ∧ 11 < 2 ^ 256 ∧
    bigEndian 32 11 = List.replicate 31 0 ++ [11] ∧
    ∃ out1 out2, script toySha 7 11 0 = some out1 ∧
      script toySha 8 11 3 = some out2 ∧
      keccakHash toySha [.number 11] = some out1.nullifierHash ∧
      out1.nullifierHash
        = "0x" ++ toySha (bufferFromHex (padStart (toString16 11) 64 '0')) ∧
      (bufferFromHex (padStart (toString16 11) 64 '0')).length = 32 ∧
      bufferFromHex (padStart (toString16 11) 64 '0') = bigEndian 32 11 ∧
      bytesValue (bigEndian 32 11) = 11 ∧
      out1.nullifierHash = "0x" ++ toySha (bigEndian 32 11) ∧
      packedBuffer [.number 11] = some (bigEndian 32 11) ∧
      keccakHash toySha [.number 7, .number 11] = some out1.commitment ∧
      keccakHash toySha [.number 8, .number 11] = some out2.commitment ∧
      out1.commitment
        = "0x" ++ toySha (bufferFromHex (padStart (toString16 7) 64 '0')
            ++ bigEndian 32 11) ∧
      (7 < 2 ^ 256 →
        out1.commitment = "0x" ++ toySha (bigEndian 32 7 ++ bigEndian 32 11)) ∧
      out1.nullifierHash = out2.nullifierHash ∧
      out1.toml[2]? = some ("nullifier_hash = \"" ++ out1.nullifierHash ++ "\"") ∧
      out1.toml[2]? = out2.toml[2]? :=
  ⟨toySha_ok, by norm_num, by decide,
    C8_nullifierHash_depends_on_nullifier_only toySha toySha_ok 11 7 0 8 3 (by norm_num)⟩

end ComputeProofInputs
